import Mathlib

set_option maxRecDepth 8000

/-!
A verification development for the LogPress log-compression library.

The definitions below are a shallow embedding of the C sources:
  src/lib/token.c    (token estimation)
  src/lib/dedup.c    (line normalization for deduplication)
  src/lib/segment.c  (segment detection)
  src/lib/budget.c   (token budget packing)
  src/lib/fix.c      (fuzzy fix matching)
  src/logparse.c     (line reading and the empty-input check)

C strings are embedded as `List Char`; a possibly-NULL C string as
`Option (List Char)`.  C `size_t`/`int` values that stay non-negative are
`Nat`.  C `float` scores and confidences are `Rat` (built with `mkRat` so
that concrete values reduce inside the kernel).  Loops whose index jumps
by a computed amount are written with an explicit `fuel` argument that is
always called with an upper bound on the number of iterations (each
iteration consumes at least one list element, so `fuel` = list length can
never be exhausted before the loop's own exit condition fires); this keeps
every definition structurally recursive and executable.
-/

/-! ## Character classification (ctype.h as used by the C sources) -/

/-- C `isspace` for the ASCII execution character set. -/
def isspace (c : Char) : Bool :=
  c == ' ' || c == '\t' || c == '\n' || c == '\x0b' || c == '\x0c' || c == '\r'

/-- C `isdigit`. -/
def isdigit (c : Char) : Bool :=
  '0' ≤ c && c ≤ '9'

/-- C `isxdigit`. -/
def isxdigit (c : Char) : Bool :=
  isdigit c || ('a' ≤ c && c ≤ 'f') || ('A' ≤ c && c ≤ 'F')

/-- C `tolower` on ASCII. -/
def tolower (c : Char) : Char :=
  if 'A' ≤ c ∧ c ≤ 'Z' then Char.ofNat (c.toNat + 32) else c

/-! ## String utilities (src/lib/util.c) -/

/-- Embeds `lp_str_contains` (util.c:147): `strstr(haystack, needle) != NULL`,
checking every suffix of the haystack for the needle as a prefix. -/
def lp_str_contains (haystack needle : List Char) : Bool :=
  match haystack with
  | [] => needle.isEmpty
  | _ :: t => needle.isPrefixOf haystack || lp_str_contains t needle

/-- Embeds `lp_str_contains_ci` (util.c:151): case-insensitive substring
search, performed by lowering both sides with `tolower`. -/
def lp_str_contains_ci (haystack needle : List Char) : Bool :=
  lp_str_contains (haystack.map tolower) (needle.map tolower)

/-! ## Token estimation (src/lib/token.c) -/

/-- Number of non-whitespace bytes of a string (the `non_ws` count of
`lp_estimate_tokens`). -/
def countNonWs (t : List Char) : Nat :=
  (t.filter (fun c => !(isspace c))).length

/-- Embeds `lp_estimate_tokens` (token.c:7).  A NULL text pointer is
`none`; the C guard `!text || len == 0` returns 0. -/
def lp_estimate_tokens (text : Option (List Char)) : Nat :=
  match text with
  | none => 0
  | some t =>
    if t.length = 0 then 0
    else
      let base := (t.length + 3) / 4
      let content := (countNonWs t + 3) / 4
      (content * 7 + base * 3 + 5) / 10

/-- Embeds `lp_estimate_tokens_lines` (token.c:21): per-line estimates plus
one token per line for the newline (the `+ 1` happens even for a NULL
line pointer, exactly as in the C loop). -/
def lp_estimate_tokens_lines (lines : List (Option (List Char))) : Nat :=
  lines.foldl (fun total l => total + lp_estimate_tokens l + 1) 0

/-! ## Line normalization (src/lib/dedup.c, `lp_normalize_line`)

The C function drives the vendored tiny-regex-c engine (`re_compile` /
`re_matchp`), whose sources are not part of this repository.  The engine
is therefore a parameter `matchp : List Char → List Char → Option (Nat × Nat)`
mapping (pattern, text) to the leftmost match position and length, and
`re_matchp_lit` below instantiates it for metacharacter-free patterns. -/

/-- Modelled from the spec: the vendored regex engine (`re.h`) is not under
src/; spec §9 only requires a minimal engine on which literal pattern text
matches as plain substring.  For a metacharacter-free pattern this is
leftmost literal substring search, returning the match index and the
pattern length. -/
def re_matchp_lit (pat : List Char) (text : List Char) : Option (Nat × Nat) :=
  if pat.isPrefixOf text then some (0, pat.length)
  else
    match text with
    | [] => none
    | _ :: rest =>
      match re_matchp_lit pat rest with
      | some (i, l) => some (i + 1, l)
      | none => none

/-- One pass of the replacement loop of `lp_normalize_line` (dedup.c:84):
while text remains, find the next match; a non-empty match is replaced by
a single space and scanning resumes after it; otherwise the rest of the
text is copied verbatim.  `fuel` bounds the number of replacements (each
one consumes at least one character, so the initial `fuel` = text length
is never exhausted). -/
def stripOneF (matchp : List Char → List Char → Option (Nat × Nat))
    (pat : List Char) : Nat → List Char → List Char
  | 0, p => p
  | _ + 1, [] => []
  | fuel + 1, p =>
    match matchp pat p with
    | some (idx, len) =>
      if 0 < len then
        p.take idx ++ ' ' :: stripOneF matchp pat fuel (p.drop (idx + len))
      else p
    | none => p

/-- Replacement of every non-empty match of one strip pattern by a single
space (the per-pattern body of `lp_normalize_line`). -/
def stripOne (matchp : List Char → List Char → Option (Nat × Nat))
    (pat : List Char) (p : List Char) : List Char :=
  stripOneF matchp pat p.length p

/-- The whitespace-collapsing scan of `lp_normalize_line` (dedup.c:103):
a run of whitespace becomes one `' '`; `in_ws` tracks whether the scan is
inside such a run. -/
def collapseRun : List Char → Bool → List Char
  | [], _ => []
  | c :: rest, in_ws =>
    if isspace c then
      if in_ws then collapseRun rest true
      else ' ' :: collapseRun rest true
    else c :: collapseRun rest false

/-- The single trailing-space trim of `lp_normalize_line` (dedup.c:117):
`if (dst > result && *(dst-1) == ' ') dst--;`. -/
def trimTrail : List Char → List Char
  | [] => []
  | [c] => if c = ' ' then [] else [c]
  | c :: d :: rest => c :: trimTrail (d :: rest)

/-- Whitespace collapse of `lp_normalize_line`: skip leading whitespace,
collapse runs, trim one trailing space. -/
def collapse_ws (s : List Char) : List Char :=
  trimTrail (collapseRun (s.dropWhile (fun c => isspace c)) false)

/-- Embeds `lp_normalize_line` (dedup.c:68): apply each strip pattern in
order (replacing non-empty matches by one space), then collapse whitespace
runs and trim.  `matchp` is the regex engine (see `re_matchp_lit`). -/
def lp_normalize_line (matchp : List Char → List Char → Option (Nat × Nat))
    (line : List Char) (strip_patterns : List (List Char)) : List Char :=
  collapse_ws (strip_patterns.foldl (fun acc pat => stripOne matchp pat acc) line)

/-! Invariants of collapsed strings, used to analyse the idempotence of
the whitespace collapse. -/

/-- An acceptable character of a collapsed string: any whitespace in it
is the plain space. -/
def okc (c : Char) : Bool :=
  (c == ' ') || !(isspace c)

/-- The first character, if any, is not a plain space. -/
def firstNotSp : List Char → Bool
  | [] => true
  | d :: _ => !(d == ' ')

/-- Every whitespace character is a plain space and no two spaces are
adjacent. -/
def goodRun : List Char → Bool
  | [] => true
  | c :: rest => okc c && (!(c == ' ') || firstNotSp rest) && goodRun rest

/-- The first character, if any, is not whitespace. -/
def headOk : List Char → Bool
  | [] => true
  | c :: _ => !(isspace c)

/-- The last character, if any, is not a plain space. -/
def lastOk (l : List Char) : Bool :=
  !(l.getLast? == some ' ')

/-! ## Segment detection (src/lib/segment.c) -/

/-- Embeds the `lp_seg_type` enum (segment.h:12), in declaration order
(so `toNatCode` below gives the C numeric values). -/
inductive lp_seg_type where
  | ERROR
  | WARNING
  | INFO
  | DATA
  | PHASE
  | BUILD_PROGRESS
  | BOILERPLATE
  | NORMAL
deriving DecidableEq

/-- Numeric value of the C enum constant. -/
def lp_seg_type.toNatCode : lp_seg_type → Nat
  | .ERROR => 0
  | .WARNING => 1
  | .INFO => 2
  | .DATA => 3
  | .PHASE => 4
  | .BUILD_PROGRESS => 5
  | .BOILERPLATE => 6
  | .NORMAL => 7

/-- The mode-profile fields read by the segmenter (mode.h:11).  A NULL
`struct lp_mode *` behaves exactly like a profile whose lists are all
empty (every use in segment.c guards `if (mode)` around list loops), so
the NULL generic profile is `lp_mode.generic` below. -/
structure lp_mode where
  error_patterns : List (List Char)
  warning_patterns : List (List Char)
  phase_markers : List (List Char)
  block_triggers : List (List Char)
  boilerplate_patterns : List (List Char)
deriving DecidableEq

/-- The NULL / generic profile. -/
def lp_mode.generic : lp_mode :=
  ⟨[], [], [], [], []⟩

/-- Embeds `lp_indent_level` (segment.c:12): leading spaces count 1, tabs
count 4, stop at the first other character. -/
def lp_indent_level : List Char → Nat
  | ' ' :: rest => 1 + lp_indent_level rest
  | '\t' :: rest => 4 + lp_indent_level rest
  | _ => 0

/-- Embeds `lp_is_blank` (segment.c:23). -/
def lp_is_blank (line : List Char) : Bool :=
  line.all (fun c => isspace c)

/-- Inner scan of `lp_is_tabular` (segment.c:38): count transitions from a
separator run (spaces/tabs not at position 0) to a non-separator char,
stopping at 32 columns. -/
def tabColsGo : List Char → Nat → Nat → Bool → Nat
  | [], _, ncols, _ => ncols
  | c :: rest, pos, ncols, in_space =>
    if ncols < 32 then
      if c = ' ' ∨ c = '\t' then
        tabColsGo rest (pos + 1) ncols (if in_space = false ∧ 0 < pos then true else in_space)
      else
        if in_space = true then tabColsGo rest (pos + 1) (ncols + 1) false
        else tabColsGo rest (pos + 1) ncols false
    else ncols

/-- Column-transition count of one line (the `ncols` of `lp_is_tabular`). -/
def tabCols (line : List Char) : Nat :=
  tabColsGo line 0 0 false

/-- Embeds `lp_is_tabular` (segment.c:31): at least 3 lines, and the
maximum transition count over the first 5 lines is at least 2. -/
def lp_is_tabular (lines : List (List Char)) : Bool :=
  if lines.length < 3 then false
  else decide (2 ≤ ((lines.take 5).map tabCols).foldl max 0)

/-- Embeds `lp_is_build_progress` (segment.c:64): optional leading
whitespace, then `[DIGITS/DIGITS]`. -/
def lp_is_build_progress (line : List Char) : Bool :=
  match line.dropWhile (fun c => isspace c) with
  | '[' :: q =>
    !(q.takeWhile isdigit).isEmpty &&
    (match q.dropWhile isdigit with
     | '/' :: s =>
       !(s.takeWhile isdigit).isEmpty &&
       (match s.dropWhile isdigit with
        | ']' :: _ => true
        | _ => false)
     | _ => false)
  | _ => false

/-- Embeds `lp_is_boilerplate` (segment.c:104): case-sensitive contains of
any profile boilerplate pattern (NULL mode / NULL list ⇒ false, i.e. the
empty list). -/
def lp_is_boilerplate (line : List Char) (mode : lp_mode) : Bool :=
  mode.boilerplate_patterns.any (fun p => lp_str_contains line p)

/-- Embeds `classify_line` (segment.c:189): mode error patterns, mode
warning patterns, the generic error sentinels, `warning:`, else NORMAL. -/
def classify_line (line : List Char) (mode : lp_mode) : lp_seg_type :=
  if mode.error_patterns.any (fun p => lp_str_contains_ci line p) then .ERROR
  else if mode.warning_patterns.any (fun p => lp_str_contains_ci line p) then .WARNING
  else if lp_str_contains_ci line ("error:".toList) ||
          lp_str_contains_ci line ("fatal:".toList) ||
          lp_str_contains_ci line ("FAILED".toList) ||
          lp_str_contains_ci line ("undefined reference".toList) then .ERROR
  else if lp_str_contains_ci line ("warning:".toList) then .WARNING
  else .NORMAL

/-- Embeds `is_phase_marker` (segment.c:210): case-sensitive contains of a
profile phase marker. -/
def is_phase_marker (line : List Char) (mode : lp_mode) : Bool :=
  mode.phase_markers.any (fun p => lp_str_contains line p)

/-- Embeds `is_block_trigger` (segment.c:219): case-insensitive contains
of a profile block trigger. -/
def is_block_trigger (line : List Char) (mode : lp_mode) : Bool :=
  mode.block_triggers.any (fun p => lp_str_contains_ci line p)

/-- The `seg_type` update of the segmenter's inner loop (segment.c:348):
ERROR overrides everything, WARNING only upgrades NORMAL. -/
def stepType (ty t : lp_seg_type) : lp_seg_type :=
  if t = .ERROR then .ERROR
  else if t = .WARNING ∧ ty = .NORMAL then .WARNING
  else ty

/-- The `saw_error_content` update of the inner loop. -/
def stepSaw (saw : Bool) (t : lp_seg_type) : Bool :=
  if t = .ERROR then true else saw

/-- A detected segment (segment.h:24).  `lines` are recovered from the
input by the `[start_line, end_line]` range, so they are not duplicated
here; `label` is a fixed string derived from `type`. -/
structure lp_segment where
  start_line : Nat
  end_line : Nat
  type : lp_seg_type
  line_count : Nat
  token_count : Nat
  score : Rat
deriving DecidableEq

instance : Inhabited lp_segment :=
  ⟨⟨0, 0, .NORMAL, 0, 0, 0⟩⟩

/-- The inner extension loop of `lp_segment_detect` (segment.c:321),
walking the lines after the segment's first line.  `taken` is the number
of lines taken so far (`i - seg_start` in the C, so the C conditions
`i > seg_start`, `i > seg_start + 1`, `i > seg_start + 2` are
`1 ≤ taken`, `2 ≤ taken`, `3 ≤ taken`).  Returns the final `taken` and
segment type. -/
def segExtendList (mode : lp_mode) (base_indent : Nat) :
    List (List Char) → Nat → lp_seg_type → Bool → Nat × lp_seg_type
  | [], taken, ty, _ => (taken, ty)
  | line :: rest, taken, ty, saw =>
    if lp_is_blank line = true then (taken, ty)
    else if is_phase_marker line mode = true ∧ 1 ≤ taken then (taken, ty)
    else if lp_indent_level line < base_indent - 2 ∧ 2 ≤ taken then (taken, ty)
    else if saw = true ∧ lp_is_build_progress line = true ∧
            classify_line line mode = .NORMAL then (taken, ty)
    else if ty = .BUILD_PROGRESS ∧ lp_is_build_progress line = false ∧
            classify_line line mode = .ERROR then (taken, ty)
    else if is_block_trigger line mode = true ∧ 3 ≤ taken ∧
            stepType ty (classify_line line mode) = .NORMAL then
      (taken, stepType ty (classify_line line mode))
    else
      segExtendList mode base_indent rest (taken + 1)
        (stepType ty (classify_line line mode))
        (stepSaw saw (classify_line line mode))

/-- Initial segment type and `saw_error_content` flag for a segment's
first line (segment.c:292 through 316). -/
def segInit (line : List Char) (mode : lp_mode) : lp_seg_type × Bool :=
  let ty0 : lp_seg_type := if is_phase_marker line mode = true then .PHASE else .NORMAL
  let t := classify_line line mode
  let p1 : lp_seg_type × Bool :=
    if t = .ERROR then (.ERROR, true)
    else if ty0.toNatCode < t.toNatCode then (t, false)
    else (ty0, false)
  if lp_is_build_progress line = true ∧ p1.1 = .NORMAL then (.BUILD_PROGRESS, p1.2)
  else p1

/-- Post-classification (segment.c:374): boilerplate / build-progress
majority (only from NORMAL or DATA), then the tabular check (only from
NORMAL). -/
def postClassify (slice : List (List Char)) (ty : lp_seg_type) (mode : lp_mode) : lp_seg_type :=
  let n := slice.length
  let ty1 :=
    if ty = .NORMAL ∨ ty = .DATA then
      let bp := (slice.filter (fun l => lp_is_boilerplate l mode)).length
      let pr := (slice.filter (fun l => lp_is_build_progress l)).length
      if n ≤ bp * 2 ∧ ty ≠ .ERROR then .BOILERPLATE
      else if n ≤ pr * 2 ∧ ty = .NORMAL then .BUILD_PROGRESS
      else ty
    else ty
  if ty1 = .NORMAL ∧ lp_is_tabular slice = true then .DATA else ty1

/-- The outer loop of `lp_segment_detect` (segment.c:286): skip blank
lines, open a segment at the first non-blank line, extend it with
`segExtendList`, post-classify, emit, continue after it.  `rest` is the
unprocessed suffix of the input and `i` its absolute index.  Each
iteration consumes at least one line, so `fuel` = number of remaining
lines (as supplied by `lp_segment_detect`) is never exhausted first. -/
def segLoopF (mode : lp_mode) : Nat → List (List Char) → Nat → List lp_segment
  | 0, _, _ => []
  | _ + 1, [], _ => []
  | fuel + 1, line :: rest, i =>
    if lp_is_blank line = true then segLoopF mode fuel rest (i + 1)
    else
      let ext := segExtendList mode (lp_indent_level line) rest 1
        (segInit line mode).1 (segInit line mode).2
      let slice := (line :: rest).take ext.1
      ⟨i, i + ext.1 - 1, postClassify slice ext.2 mode, ext.1,
        lp_estimate_tokens_lines (slice.map some), 0⟩ ::
      segLoopF mode fuel (rest.drop (ext.1 - 1)) (i + ext.1)

/-- Embeds `lp_segment_detect` (segment.c:275). -/
def lp_segment_detect (lines : List (List Char)) (mode : lp_mode) : List lp_segment :=
  segLoopF mode lines.length lines 0

/-! ## Budget packing (src/lib/budget.c) -/

/-- Insertion step of a comparator sort (`le x y = true` means x may come
before y). -/
def insertLe {α : Type} (le : α → α → Bool) (x : α) : List α → List α
  | [] => [x]
  | y :: ys => if le x y then x :: y :: ys else y :: insertLe le x ys

/-- Comparator sort standing in for the C `qsort` calls (budget.c:57,
budget.c:69, fix.c:377).  Stable insertion sort; `qsort` promises no
particular tie order, and no claim depends on one. -/
def sortLe {α : Type} (le : α → α → Bool) (l : List α) : List α :=
  l.foldr (insertLe le) []

/-- Embeds `lp_budget_result` (budget.h), with `count` as
`indices.length`. -/
structure lp_budget_result where
  budget_tokens : Nat
  indices : List Nat
  total_tokens : Nat
deriving DecidableEq

/-- Segment lookup `segs[i]` of the C array. -/
def segAt (segs : List lp_segment) (i : Nat) : lp_segment :=
  segs.getD i default

/-- Indices of ERROR segments, in position order (budget.c:41 phase 1). -/
def errorIndices (segs : List lp_segment) : List Nat :=
  (List.range segs.length).filter (fun i => decide ((segAt segs i).type = .ERROR))

/-- Indices of non-ERROR segments, in position order (the candidate array
of budget.c:49). -/
def candIndices (segs : List lp_segment) : List Nat :=
  (List.range segs.length).filter (fun i => !decide ((segAt segs i).type = .ERROR))

/-- Phase-2 greedy fill (budget.c:59): take each candidate whose tokens
still fit under `avail`. -/
def greedyPack (tok : Nat → Nat) (avail : Nat) (cands : List Nat)
    (acc : List Nat × Nat) : List Nat × Nat :=
  cands.foldl
    (fun a i => if a.2 + tok i ≤ avail then (a.1 ++ [i], a.2 + tok i) else a) acc

/-- Embeds `lp_budget_pack` (budget.c:30): mandatory ERROR segments, then
greedy fill of non-ERROR segments in descending score order, indices
sorted ascending, reserve added to the total at the end. -/
def lp_budget_pack (segs : List lp_segment) (budget_tokens reserve_tokens : Nat) :
    lp_budget_result :=
  let available := if reserve_tokens < budget_tokens then budget_tokens - reserve_tokens else 0
  let errIdx := errorIndices segs
  let t1 := (errIdx.map (fun i => (segAt segs i).token_count)).sum
  let sortedCands :=
    sortLe (fun i j => decide ((segAt segs j).score ≤ (segAt segs i).score)) (candIndices segs)
  let packed := greedyPack (fun i => (segAt segs i).token_count) available sortedCands (errIdx, t1)
  ⟨budget_tokens, sortLe (fun i j => decide (i ≤ j)) packed.1, packed.2 + reserve_tokens⟩

/-! ## Fix matching (src/lib/fix.c) -/

/-- The `text[i+1] != ' '` lookahead of the path-elision branch of
`normalize_for_match` (fix.c:261). -/
def pathFollows : List Char → Bool
  | r :: _ => !(r == ' ')
  | [] => false

/-- Fuel-bounded body of `normalize_for_match` (fix.c:252): lowercase,
elide filesystem paths, elide `0x…` hex literals, collapse digit runs to
`#`.  `in_path` is the path-elision state; after a path terminator the
C falls through and processes the terminator itself.  Each step consumes
at least one character, so `fuel` = text length is never exhausted. -/
def nfmF : Nat → Bool → List Char → List Char
  | 0, _, p => p.map tolower
  | _ + 1, _, [] => []
  | fuel + 1, in_path, c :: rest =>
    if (c = '/' ∨ c = '\\') ∧ pathFollows rest = true then
      nfmF fuel true rest
    else if in_path = true ∧ ¬(c = ' ' ∨ c = ':' ∨ c = '\n') then
      nfmF fuel true rest
    else if c = '0' ∧ rest.head? = some 'x' then
      ' ' :: nfmF fuel false ((rest.drop 1).dropWhile isxdigit)
    else if isdigit c then
      '#' :: nfmF fuel false (rest.dropWhile isdigit)
    else
      tolower c :: nfmF fuel false rest

/-- Embeds `normalize_for_match` (fix.c:252). -/
def normalize_for_match (text : List Char) : List Char :=
  nfmF text.length false text

/-- Embeds `lcs_length` (fix.c:290): the rolling-row longest common
substring DP.  The fold state is (previous row, best cell seen). -/
def lcs_length (a b : List Char) : Nat :=
  (a.foldl
    (fun (st : List Nat × Nat) ai =>
      let curr := 0 :: List.zipWith (fun bj pj => if ai = bj then pj + 1 else 0) b st.1
      (curr, max st.2 (curr.foldl max 0)))
    (List.replicate (b.length + 1) 0, 0)).2

/-- The fix-entry fields read by the matcher (fix.h).  `pattern` and
`regex` may be NULL in the C (`none` here); the other fields (tags, fix
text, …) do not influence matching. -/
structure lp_fix where
  pattern : Option (List Char)
  regex : Option (List Char)
deriving DecidableEq

/-- Embeds `lp_fix_match` (fix.h). -/
structure lp_fix_match where
  fix : lp_fix
  confidence : Rat
deriving DecidableEq

/-- Per-entry confidence of `lp_fix_match_all` (fix.c:333 through 362):
0.9 on a regex hit, otherwise (the 0.9 also being ≥ 0.5 and so skipping
the fuzzy block) 0.85 on a case-insensitive raw substring hit, otherwise
the normalized-LCS ratio when it beats the current confidence.  The regex
engine is the boolean parameter `engine` (a pattern whose compilation
fails behaves as an engine answering false). -/
def fix_confidence (engine : List Char → List Char → Bool)
    (error_text : List Char) (f : lp_fix) : Rat :=
  let conf1 : Rat :=
    match f.regex with
    | some r => if r ≠ [] then (if engine r error_text then mkRat 9 10 else 0) else 0
    | none => 0
  if conf1 < mkRat 1 2 then
    match f.pattern with
    | some pat =>
      if lp_str_contains_ci error_text pat then mkRat 85 100
      else
        let ne := normalize_for_match error_text
        let np := normalize_for_match pat
        let l := lcs_length ne np
        let m := max ne.length np.length
        if 0 < m then (if conf1 < mkRat l m then mkRat l m else conf1) else conf1
    | none => conf1
  else conf1

/-- Whether the entry's regex is non-empty and matches the raw error
text (the premise of the spec's first cascade step). -/
def regex_hits (engine : List Char → List Char → Bool)
    (error_text : List Char) (f : lp_fix) : Bool :=
  match f.regex with
  | some r => !r.isEmpty && engine r error_text
  | none => false

/-- Follows the spec's words (§4.9) for the per-entry confidence cascade:
0.9 if the regex is non-empty and matches the raw error text; otherwise
0.85 if the raw error contains the pattern case-insensitively; otherwise
`ℓ / max(|norm_err|, |norm_pat|)` (a division by zero being zero in ℚ,
matching the code's guard). -/
def spec_confidence (engine : List Char → List Char → Bool)
    (error_text : List Char) (f : lp_fix) : Rat :=
  if regex_hits engine error_text f = true then
    mkRat 9 10
  else
    match f.pattern with
    | some pat =>
      if lp_str_contains_ci error_text pat then mkRat 85 100
      else
        ((lcs_length (normalize_for_match error_text) (normalize_for_match pat) : Rat) /
          ((max (normalize_for_match error_text).length (normalize_for_match pat).length : Nat) : Rat))
    | none => 0

/-- Embeds `lp_fix_match_all` (fix.c:322): entries whose confidence is at
least the caller threshold, sorted by confidence descending. -/
def lp_fix_match_all (engine : List Char → List Char → Bool)
    (error_text : List Char) (fixes : List lp_fix) (min_confidence : Rat) :
    List lp_fix_match :=
  sortLe (fun a b => decide (b.confidence ≤ a.confidence))
    ((fixes.filter (fun f => decide (min_confidence ≤ fix_confidence engine error_text f))).map
      (fun f => ⟨f, fix_confidence engine error_text f⟩))

/-- Boolean regex engine for literal (metacharacter-free) patterns,
instantiating the abstract engine of the fix matcher; see
`re_matchp_lit`. -/
def re_match_lit (pat text : List Char) : Bool :=
  (re_matchp_lit pat text).isSome

/-! ## logparse input reading and the empty-input check (src/logparse.c) -/

/-- One step of `lp_readline` (util.c:67) on a byte stream: `none` at end
of input, otherwise the line up to (and excluding) `\n`, `\r\n` or `\r`,
with the unread remainder. -/
def readlineGo : List Char → List Char × List Char
  | [] => ([], [])
  | '\n' :: rest => ([], rest)
  | '\r' :: '\n' :: rest => ([], rest)
  | '\r' :: rest => ([], rest)
  | c :: rest =>
    let lr := readlineGo rest
    (c :: lr.1, lr.2)

/-- Embeds `lp_readline` (util.c:67): returns -1 (here `none`) exactly
when no character is left. -/
def lp_readline : List Char → Option (List Char × List Char)
  | [] => none
  | c :: rest => some (readlineGo (c :: rest))

/-- Embeds `read_all_lines` (logparse.c:144), fuel-bounded: each line
consumes at least one character, so `fuel` = input length suffices. -/
def read_all_linesF : Nat → List Char → List (List Char)
  | 0, _ => []
  | fuel + 1, input =>
    match lp_readline input with
    | none => []
    | some lr => lr.1 :: read_all_linesF fuel lr.2

/-- All lines of the input byte stream. -/
def read_all_lines (input : List Char) : List (List Char) :=
  read_all_linesF input.length input

/-- Outcome of logparse's input check: either the fatal empty-input exit
(message written to standard error, exit code) or the pipeline proceeding
on the lines read. -/
inductive logparse_outcome where
  | emptyInput (stderr_msg : List Char) (exit_code : Nat)
  | proceed (lines : List (List Char))
deriving DecidableEq

/-- Embeds the empty-input check of `main` (logparse.c:711): zero lines
read means the message `logparse: empty input` on standard error and exit
code 1; otherwise the pipeline continues with the lines and eventually
emits a digest. -/
def logparse_check_input (input : List Char) : logparse_outcome :=
  let la := read_all_lines input
  if la.length = 0 then .emptyInput ("logparse: empty input".toList) 1
  else .proceed la

/-! ## Concrete inputs for the scenario claims -/

/-- The four-line mixed progress/error input of spec scenario 3
(zero-based line numbers in the embedding). -/
def c3_lines : List (List Char) :=
  [("[1/3] Building a".toList), ("error: bad thing".toList),
   ("[2/3] Building b".toList), ("[3/3] Building c".toList)]

/-- Five flush-left two-column lines between blank lines: an instance of
the input shape of spec scenario 4. -/
def c6_flush : List (List Char) :=
  [[], ("a b".toList), ("a b".toList), ("a b".toList), ("a b".toList),
   ("a b".toList), []]

/-- Five two-column lines indented by two spaces, between blank lines. -/
def c6_indented : List (List Char) :=
  [[], ("  aa bb".toList), ("  cc dd".toList), ("  ee ff".toList),
   ("  gg hh".toList), ("  ii jj".toList), []]

/-- ASCII single-quote character. -/
def squote : Char := Char.ofNat 39

/-- The error text of spec scenario 6:
`undefined reference to 'foo_bar' in /path/x.o`. -/
def c8_err : List Char :=
  ("undefined reference to ".toList) ++ [squote] ++ ("foo_bar".toList) ++
    [squote] ++ (" in /path/x.o".toList)

/-- The fix entry of spec scenario 6: empty regex, pattern
`undefined reference to foo_bar`. -/
def c8_fix : lp_fix :=
  ⟨some ("undefined reference to foo_bar".toList), some []⟩

/-- Two ERROR segments of 1000 tokens each (spec scenario 5). -/
def twoErrorSegs : List lp_segment :=
  [⟨0, 0, .ERROR, 1, 1000, 0⟩, ⟨1, 1, .ERROR, 1, 1000, 0⟩]

/-! ## Generic helper lemmas: comparator sort and pairwise lists -/

theorem insertLe_perm {α : Type} (le : α → α → Bool) (x : α) (l : List α) :
    (insertLe le x l).Perm (x :: l) := by
  induction l with
  | nil => simp [insertLe]
  | cons y ys ih =>
    simp only [insertLe]
    split
    · exact List.Perm.refl _
    · exact (ih.cons y).trans (List.Perm.swap x y ys)

theorem sortLe_perm {α : Type} (le : α → α → Bool) (l : List α) :
    (sortLe le l).Perm l := by
  induction l with
  | nil => simp [sortLe]
  | cons x xs ih =>
    simp only [sortLe, List.foldr]
    exact (insertLe_perm le x _).trans (ih.cons x)

theorem insertLe_pairwise {α : Type} (le : α → α → Bool)
    (htot : ∀ a b, le a b = false → le b a = true)
    (htrans : ∀ a b c, le a b = true → le b c = true → le a c = true)
    (x : α) (l : List α) (h : l.Pairwise (fun a b => le a b = true)) :
    (insertLe le x l).Pairwise (fun a b => le a b = true) := by
  induction l with
  | nil => simp [insertLe]
  | cons y ys ih =>
    simp only [insertLe]
    rcases List.pairwise_cons.mp h with ⟨hy, hys⟩
    by_cases hxy : le x y = true
    · rw [if_pos hxy]
      refine List.pairwise_cons.mpr ⟨?_, h⟩
      intro b hb
      rcases List.mem_cons.mp hb with rfl | hb
      · exact hxy
      · exact htrans x y b hxy (hy b hb)
    · rw [if_neg hxy]
      refine List.pairwise_cons.mpr ⟨?_, ih hys⟩
      intro b hb
      have hb' := (insertLe_perm le x ys).mem_iff.mp hb
      rcases List.mem_cons.mp hb' with rfl | hb'
      · exact htot b y (Bool.eq_false_iff.mpr hxy)
      · exact hy b hb'

theorem sortLe_pairwise {α : Type} (le : α → α → Bool)
    (htot : ∀ a b, le a b = false → le b a = true)
    (htrans : ∀ a b c, le a b = true → le b c = true → le a c = true)
    (l : List α) :
    (sortLe le l).Pairwise (fun a b => le a b = true) := by
  induction l with
  | nil => simp [sortLe]
  | cons x xs ih =>
    simp only [sortLe, List.foldr] at ih ⊢
    exact insertLe_pairwise le htot htrans x _ ih

theorem pairwise_mem_eq {α : Type} {R : α → α → Prop} {P : α → Prop}
    (hP : ∀ a b, P a → P b → R a b → False) :
    ∀ (l : List α), l.Pairwise R → ∀ a ∈ l, ∀ b ∈ l, P a → P b → a = b := by
  intro l
  induction l with
  | nil => intro _ a ha; simp at ha
  | cons c cl ih =>
    intro hl a ha b hb hpa hpb
    rcases List.pairwise_cons.mp hl with ⟨hhead, htail⟩
    rcases List.mem_cons.mp ha with ha' | ha'
    · rcases List.mem_cons.mp hb with hb' | hb'
      · rw [ha', hb']
      · exact absurd (hhead b hb') (fun r => hP a b hpa hpb (by rw [ha']; exact r))
    · rcases List.mem_cons.mp hb with hb' | hb'
      · exact absurd (hhead a ha') (fun r => hP b a hpb hpa (by rw [hb']; exact r))
      · exact ih htail a ha' b hb' hpa hpb

/-! ## Token estimator lemmas -/

theorem tokens_lines_foldl (g : Option (List Char) → Nat) :
    ∀ (ls : List (Option (List Char))) (init : Nat),
      ls.foldl (fun total l => total + g l + 1) init = init + (ls.map g).sum + ls.length := by
  intro ls
  induction ls with
  | nil => intro init; simp
  | cons l ls ih =>
    intro init
    simp only [List.foldl, List.map, List.sum_cons, List.length_cons]
    rw [ih]
    omega

theorem lp_estimate_tokens_lines_eq (ls : List (Option (List Char))) :
    lp_estimate_tokens_lines ls = (ls.map lp_estimate_tokens).sum + ls.length := by
  simpa using tokens_lines_foldl lp_estimate_tokens ls 0

/-! ## Input reader lemmas -/

theorem read_all_lines_cons_ne_nil (c : Char) (rest : List Char) :
    read_all_lines (c :: rest) ≠ [] := by
  simp [read_all_lines, read_all_linesF, lp_readline]

theorem read_all_lines_nil_iff (input : List Char) :
    read_all_lines input = [] ↔ input = [] := by
  cases input with
  | nil => simp [read_all_lines, read_all_linesF]
  | cons c rest => simpa using read_all_lines_cons_ne_nil c rest

/-! ## Budget packer lemmas -/

theorem greedyPack_spec (tok : Nat → Nat) (avail : Nat) :
    ∀ (cands : List Nat) (acc : List Nat × Nat),
      ∃ picked : List Nat,
        (greedyPack tok avail cands acc).1 = acc.1 ++ picked ∧
        picked.Sublist cands ∧
        (greedyPack tok avail cands acc).2 = acc.2 + (picked.map tok).sum ∧
        (∀ j ∈ picked, tok j ≤ avail) ∧
        (greedyPack tok avail cands acc).2 ≤ max acc.2 avail := by
  intro cands
  induction cands with
  | nil =>
    intro acc
    refine ⟨[], by simp [greedyPack], List.nil_sublist _, by simp [greedyPack], ?_, ?_⟩
    · intro j hj; simp at hj
    · simp [greedyPack]
  | cons i rest ih =>
    intro acc
    by_cases hcond : acc.2 + tok i ≤ avail
    · have hstep : greedyPack tok avail (i :: rest) acc =
          greedyPack tok avail rest (acc.1 ++ [i], acc.2 + tok i) := by
        simp [greedyPack, hcond]
      rcases ih (acc.1 ++ [i], acc.2 + tok i) with ⟨picked, h1, h2, h3, h4, h5⟩
      refine ⟨i :: picked, ?_, h2.cons₂ i, ?_, ?_, ?_⟩
      · rw [hstep, h1]; simp
      · rw [hstep, h3]; simp; omega
      · intro j hj
        rcases List.mem_cons.mp hj with rfl | hj
        · omega
        · exact h4 j hj
      · rw [hstep]
        have : max (acc.2 + tok i) avail = avail := by omega
        calc (greedyPack tok avail rest (acc.1 ++ [i], acc.2 + tok i)).2
            ≤ max (acc.2 + tok i) avail := h5
          _ ≤ max acc.2 avail := by omega
    · have hstep : greedyPack tok avail (i :: rest) acc =
          greedyPack tok avail rest acc := by
        simp [greedyPack, hcond]
      rcases ih acc with ⟨picked, h1, h2, h3, h4, h5⟩
      exact ⟨picked, by rw [hstep, h1], h2.cons i, by rw [hstep, h3], h4, by rw [hstep]; exact h5⟩

theorem errorIndices_mem (segs : List lp_segment) (i : Nat) :
    i ∈ errorIndices segs ↔ i < segs.length ∧ (segAt segs i).type = .ERROR := by
  simp [errorIndices, List.mem_filter, List.mem_range]

theorem candIndices_mem (segs : List lp_segment) (i : Nat) :
    i ∈ candIndices segs ↔ i < segs.length ∧ ¬((segAt segs i).type = .ERROR) := by
  simp [candIndices, List.mem_filter, List.mem_range]

theorem errorIndices_nodup (segs : List lp_segment) : (errorIndices segs).Nodup :=
  (List.nodup_range _).filter _

theorem candIndices_nodup (segs : List lp_segment) : (candIndices segs).Nodup :=
  (List.nodup_range _).filter _

/-- C2: for every segment array and budgets, `lp_budget_pack` includes
every ERROR segment regardless of budget; every included non-ERROR
segment individually fits in `available = budget − reserve` (truncated at
0), and the total never exceeds `max (Σ error tokens) available` plus the
reserve (so non-ERROR segments are only admitted while the running total
stays within `available`); the emitted indices are strictly increasing by
segment position; and `total_tokens` is the token sum of the included
segments plus `reserve_tokens`. -/
theorem C2_budget_pack_props (segs : List lp_segment) (budget reserve : Nat) :
    (∀ i, i < segs.length → (segAt segs i).type = .ERROR →
      i ∈ (lp_budget_pack segs budget reserve).indices) ∧
    ((lp_budget_pack segs budget reserve).indices).Pairwise (fun a b => a < b) ∧
    (lp_budget_pack segs budget reserve).total_tokens =
      (((lp_budget_pack segs budget reserve).indices).map
        (fun i => (segAt segs i).token_count)).sum + reserve ∧
    (∀ i ∈ (lp_budget_pack segs budget reserve).indices,
      (segAt segs i).type ≠ .ERROR → (segAt segs i).token_count ≤ budget - reserve) ∧
    (lp_budget_pack segs budget reserve).total_tokens ≤
      max (((errorIndices segs).map (fun i => (segAt segs i).token_count)).sum)
        (budget - reserve) + reserve := by
  have havail : (if reserve < budget then budget - reserve else 0) = budget - reserve := by
    split <;> omega
  obtain ⟨picked, hP1, hP2, hP3, hP4, hP5⟩ :=
    greedyPack_spec (fun i => (segAt segs i).token_count)
      (if reserve < budget then budget - reserve else 0)
      (sortLe (fun i j => decide ((segAt segs j).score ≤ (segAt segs i).score))
        (candIndices segs))
      (errorIndices segs,
        ((errorIndices segs).map (fun i => (segAt segs i).token_count)).sum)
  set packed := greedyPack (fun i => (segAt segs i).token_count)
      (if reserve < budget then budget - reserve else 0)
      (sortLe (fun i j => decide ((segAt segs j).score ≤ (segAt segs i).score))
        (candIndices segs))
      (errorIndices segs,
        ((errorIndices segs).map (fun i => (segAt segs i).token_count)).sum)
    with hpacked
  have hidx : (lp_budget_pack segs budget reserve).indices =
      sortLe (fun i j => decide (i ≤ j)) packed.1 := rfl
  have htotal : (lp_budget_pack segs budget reserve).total_tokens =
      packed.2 + reserve := rfl
  have hperm : (sortLe (fun i j => decide (i ≤ j)) packed.1).Perm packed.1 :=
    sortLe_perm _ _
  have hscperm : (sortLe (fun i j => decide ((segAt segs j).score ≤ (segAt segs i).score))
      (candIndices segs)).Perm (candIndices segs) := sortLe_perm _ _
  have hpicked_cand : ∀ j ∈ picked, j ∈ candIndices segs := by
    intro j hj
    exact hscperm.mem_iff.mp (hP2.subset hj)
  have hnd : packed.1.Nodup := by
    rw [hP1]
    refine List.Nodup.append (errorIndices_nodup segs)
      (hP2.nodup (hscperm.symm.nodup (candIndices_nodup segs))) ?_
    intro a ha hb
    have h1 := (errorIndices_mem segs a).mp ha
    have h2 := (candIndices_mem segs a).mp (hpicked_cand a hb)
    exact h2.2 h1.2
  refine ⟨?_, ?_, ?_, ?_, ?_⟩
  · intro i hi hty
    rw [hidx, hperm.mem_iff, hP1]
    exact List.mem_append_left _ ((errorIndices_mem segs i).mpr ⟨hi, hty⟩)
  · rw [hidx]
    have hsorted := sortLe_pairwise (fun i j => decide (i ≤ j))
      (by intro a b h
          simp only [decide_eq_false_iff_not] at h
          simp only [decide_eq_true_eq]
          omega)
      (by intro a b c h1 h2
          simp only [decide_eq_true_eq] at h1 h2 ⊢
          omega)
      packed.1
    have hnd' : (sortLe (fun i j => decide (i ≤ j)) packed.1).Nodup :=
      hperm.symm.nodup hnd
    refine (hsorted.and hnd').imp ?_
    intro a b hab
    rcases hab with ⟨hle, hne⟩
    simp only [decide_eq_true_eq] at hle
    omega
  · rw [hidx, htotal]
    have hmapsum : ((sortLe (fun i j => decide (i ≤ j)) packed.1).map
        (fun i => (segAt segs i).token_count)).sum =
        (packed.1.map (fun i => (segAt segs i).token_count)).sum :=
      (hperm.map _).sum_eq
    rw [hmapsum, hP1, hP3]
    simp [List.sum_append]
  · intro i hi hty
    rw [hidx, hperm.mem_iff, hP1] at hi
    rcases List.mem_append.mp hi with hi' | hi'
    · exact absurd ((errorIndices_mem segs i).mp hi').2 hty
    · have := hP4 i hi'
      omega
  · rw [htotal]
    have h5' : packed.2 ≤
        max (((errorIndices segs).map (fun i => (segAt segs i).token_count)).sum)
          (budget - reserve) := by
      rw [← havail]
      exact hP5
    exact Nat.add_le_add_right h5' reserve

/-- Witness for C2 at the two-ERROR-segment input of spec scenario 5:
segment 0 (an ERROR segment of 1000 tokens, budget 500) is included. -/
theorem C2_budget_pack_props_witness :
    0 ∈ (lp_budget_pack twoErrorSegs 500 0).indices :=
  (C2_budget_pack_props twoErrorSegs 500 0).1 0 (by decide) (by decide)

/-- C4 counterexample: the claim's ceiling formula fails on the string
`abc` (L = 3, W = 3): the code computes `(7·1 + 3·1 + 5) / 10 = 1` with
truncating division, while `⌈(7·⌈3/4⌉ + 3·⌈3/4⌉ + 5)/10⌉ = ⌈15/10⌉ = 2`
(a ceiling `⌈n/10⌉` over naturals is `(n + 9) / 10`). -/
theorem C4_token_ceiling_counterexample :
    lp_estimate_tokens (some ("abc".toList)) = 1 ∧
    (7 * ((countNonWs ("abc".toList) + 3) / 4) +
      3 * ((("abc".toList).length + 3) / 4) + 5 + 9) / 10 = 2 ∧
    (1 : Nat) ≠ 2 := by
  refine ⟨by decide, by decide, by decide⟩

/-- C4 as amended: for every string of nonzero length L with W
non-whitespace bytes the token estimator returns
`⌊(7·⌈W/4⌉ + 3·⌈L/4⌉ + 5)/10⌋` (floor of the blend, the `+5` giving
round-to-nearest, not an outer ceiling), and the multi-line estimator
returns the sum of the per-line estimates plus 1 token per line. -/
theorem C4_token_formula_floor (t : List Char) (h : t ≠ [])
    (ls : List (List Char)) :
    lp_estimate_tokens (some t) =
      (7 * ((countNonWs t + 3) / 4) + 3 * ((t.length + 3) / 4) + 5) / 10 ∧
    lp_estimate_tokens_lines (ls.map some) =
      ((ls.map (fun l => lp_estimate_tokens (some l))).sum) + ls.length := by
  constructor
  · have hlen : ¬(t.length = 0) := by
      simpa using h
    simp only [lp_estimate_tokens, if_neg hlen]
    congr 1
    ring
  · rw [lp_estimate_tokens_lines_eq]
    simp only [List.map_map, List.length_map]
    rfl

/-- Witness for C4 at the nonempty string `ab` and the line list
`["ab", ""]`. -/
theorem C4_token_formula_floor_witness :
    ("ab".toList ≠ []) ∧
    (lp_estimate_tokens (some ("ab".toList)) =
      (7 * ((countNonWs ("ab".toList) + 3) / 4) +
        3 * ((("ab".toList).length + 3) / 4) + 5) / 10 ∧
    lp_estimate_tokens_lines ([("ab".toList), []].map some) =
      (([("ab".toList), []].map (fun l => lp_estimate_tokens (some l))).sum) + 2) :=
  ⟨by decide, C4_token_formula_floor ("ab".toList) (by decide) [("ab".toList), []]⟩

/-- C10: a NULL text pointer and a length-0 string both make the token
estimator return 0 — not the 1 token the spec's ceiling formula
`⌈(0 + 0 + 5)/10⌉` yields — so an empty (or NULL) line contributes
exactly the 1-token newline allowance in the multi-line estimator. -/
theorem C10_empty_token_zero :
    lp_estimate_tokens none = 0 ∧
    lp_estimate_tokens (some []) = 0 ∧
    (7 * 0 + 3 * 0 + 5 + 9) / 10 = 1 ∧
    lp_estimate_tokens_lines [none] = 1 ∧
    lp_estimate_tokens_lines [some []] = 1 := by
  refine ⟨by decide, by decide, by decide, by decide, by decide⟩

/-- C9: when the input read by logparse contains zero lines, the check in
`main` writes `logparse: empty input` (which ends in `: empty input`) to
standard error and exits with code 1, and the pipeline never proceeds to
produce a digest; moreover zero lines are read exactly when the input
byte stream is empty. -/
theorem C9_empty_input_exit (input : List Char)
    (h : read_all_lines input = []) :
    logparse_check_input input =
      .emptyInput ("logparse: empty input".toList) 1 ∧
    ((": empty input".toList).isSuffixOf ("logparse: empty input".toList) = true) ∧
    (∀ ls, logparse_check_input input ≠ .proceed ls) ∧
    (read_all_lines input = [] ↔ input = []) := by
  refine ⟨?_, by decide, ?_, read_all_lines_nil_iff input⟩
  · simp [logparse_check_input, h]
  · intro ls
    simp [logparse_check_input, h]

/-- Witness for C9 at the empty byte stream. -/
theorem C9_empty_input_exit_witness :
    logparse_check_input [] = .emptyInput ("logparse: empty input".toList) 1 :=
  (C9_empty_input_exit [] (by decide)).1

/-- C3: on the mixed progress/error input (`[1/3] Building a`,
`error: bad thing`, `[2/3] Building b`, `[3/3] Building c`) with no mode
profile, the segmenter produces exactly a BUILD_PROGRESS segment on line
0, an ERROR segment on line 1, and a BUILD_PROGRESS segment on lines 2-3
(zero-based; the spec numbers the same lines 1, 2, 3-4): the trailing
progress lines are not absorbed into the error segment. -/
theorem C3_mixed_progress_error :
    (lp_segment_detect c3_lines lp_mode.generic).map
        (fun s => (s.start_line, s.end_line, s.type)) =
      [(0, 0, lp_seg_type.BUILD_PROGRESS), (1, 1, lp_seg_type.ERROR),
       (2, 3, lp_seg_type.BUILD_PROGRESS)] := by
  decide

/-- C6 counterexample: five flush-left lines `a b` — non-blank, exactly
two non-whitespace columns separated by whitespace, preceded and followed
by blank lines — produce exactly one segment, but its type is NORMAL, not
DATA: the column counter of `lp_is_tabular` counts separator-to-content
transitions, and a flush-left two-column line yields only 1. -/
theorem C6_tabular_two_columns_counterexample :
    (lp_segment_detect c6_flush lp_mode.generic).map
        (fun s => (s.start_line, s.end_line, s.type)) =
      [(1, 5, lp_seg_type.NORMAL)] ∧
    lp_seg_type.NORMAL ≠ lp_seg_type.DATA := by
  refine ⟨by decide, by decide⟩

/-- C6 as amended: for the scenario input whose five two-column lines are
indented by two spaces (blank lines before and after), the indentation
makes the transition counter of `lp_is_tabular` reach 2, and the
segmenter with no mode profile produces exactly one segment, of type
DATA; with flush-left columns the counter reaches only 1 and the single
segment keeps type NORMAL. -/
theorem C6_tabular_indented_block_data :
    (lp_segment_detect c6_indented lp_mode.generic).map
        (fun s => (s.start_line, s.end_line, s.type)) =
      [(1, 5, lp_seg_type.DATA)] := by
  decide

/-! ## Whitespace-collapse lemmas (for the idempotence claim) -/

theorem okc_space (c : Char) (h1 : okc c = true) (h2 : isspace c = true) :
    c = ' ' := by
  simp only [okc, h2, Bool.not_true, Bool.or_false, beq_iff_eq] at h1
  exact h1

theorem nonspace_ne_space (c : Char) (h : isspace c = false) : ¬(c = ' ') := by
  intro hc
  rw [hc] at h
  simp [isspace] at h

theorem okc_of_nonspace (c : Char) (h : isspace c = false) : okc c = true := by
  simp [okc, h]

theorem firstNotSp_collapseRun_true :
    ∀ (l : List Char), firstNotSp (collapseRun l true) = true := by
  intro l
  induction l with
  | nil => simp [collapseRun, firstNotSp]
  | cons c rest ih =>
    by_cases hc : isspace c = true
    · simpa [collapseRun, hc] using ih
    · simp only [Bool.not_eq_true] at hc
      simp only [collapseRun, hc, Bool.false_eq_true, if_false, firstNotSp]
      simpa [beq_iff_eq] using nonspace_ne_space c hc

theorem goodRun_collapseRun :
    ∀ (l : List Char) (b : Bool), goodRun (collapseRun l b) = true := by
  intro l
  induction l with
  | nil => intro b; simp [collapseRun, goodRun]
  | cons c rest ih =>
    intro b
    by_cases hc : isspace c = true
    · cases b
      · simp only [collapseRun, hc, if_true, Bool.false_eq_true, if_false]
        have hfns := firstNotSp_collapseRun_true rest
        have hgr := ih true
        cases hx : collapseRun rest true with
        | nil => simp [goodRun, okc, firstNotSp]
        | cons d t =>
          rw [hx] at hfns hgr
          simp only [firstNotSp] at hfns
          simp only [goodRun, Bool.and_eq_true] at hgr ⊢
          exact ⟨⟨by decide, by simp [firstNotSp, hfns]⟩, hgr⟩
      · simpa [collapseRun, hc] using ih true
    · simp only [Bool.not_eq_true] at hc
      simp only [collapseRun, hc, Bool.false_eq_true, if_false]
      have hgr := ih false
      have hcs := nonspace_ne_space c hc
      simp only [goodRun, Bool.and_eq_true] at hgr ⊢
      refine ⟨⟨okc_of_nonspace c hc, ?_⟩, hgr⟩
      simp [beq_iff_eq, hcs]

theorem headOk_dropWhile (s : List Char) :
    headOk (s.dropWhile (fun c => isspace c)) = true := by
  induction s with
  | nil => simp [headOk]
  | cons c rest ih =>
    by_cases hc : isspace c = true
    · simpa [List.dropWhile_cons, hc] using ih
    · simp only [Bool.not_eq_true] at hc
      simp [List.dropWhile_cons, hc, headOk]

theorem headOk_collapseRun_false (l : List Char) (h : headOk l = true) :
    headOk (collapseRun l false) = true := by
  cases l with
  | nil => simp [collapseRun, headOk]
  | cons c rest =>
    simp only [headOk, Bool.not_eq_true'] at h
    simp [collapseRun, h, headOk]

theorem collapseRun_true_of_headOk (l : List Char) (h : headOk l = true) :
    collapseRun l true = collapseRun l false := by
  cases l with
  | nil => rfl
  | cons c rest =>
    simp only [headOk, Bool.not_eq_true'] at h
    simp [collapseRun, h]

theorem collapseRun_id :
    ∀ (l : List Char), goodRun l = true → collapseRun l false = l := by
  intro l
  induction l with
  | nil => intro _; rfl
  | cons c rest ih =>
    intro h
    simp only [goodRun, Bool.and_eq_true] at h
    obtain ⟨⟨hokc, hadj⟩, hrest⟩ := h
    by_cases hc : isspace c = true
    · have hcsp : c = ' ' := okc_space c hokc hc
      subst hcsp
      simp only [beq_self_eq_true, Bool.not_true, Bool.false_or] at hadj
      have hhead : headOk rest = true := by
        cases rest with
        | nil => simp [headOk]
        | cons d r =>
          simp only [firstNotSp, Bool.not_eq_true', beq_eq_false_iff_ne] at hadj
          simp only [goodRun, Bool.and_eq_true] at hrest
          have hod := hrest.1.1
          simp only [headOk, Bool.not_eq_true']
          by_contra hds
          simp only [Bool.not_eq_false] at hds
          exact hadj (okc_space d hod hds)
      simp only [collapseRun, isspace, beq_self_eq_true, Bool.true_or, if_true]
      rw [collapseRun_true_of_headOk rest hhead, ih hrest]
      simp
    · simp only [Bool.not_eq_true] at hc
      simp [collapseRun, hc, ih hrest]

theorem trimTrail_eq_nil_iff :
    ∀ (d : Char) (rest : List Char),
      trimTrail (d :: rest) = [] ↔ rest = [] ∧ d = ' ' := by
  intro d rest
  cases rest with
  | nil =>
    constructor
    · intro h
      by_cases hd : d = ' '
      · exact ⟨rfl, hd⟩
      · simp [trimTrail, hd] at h
    · intro h
      simp [trimTrail, h.2]
  | cons e r =>
    simp [trimTrail]

theorem trimTrail_cons_shape (d : Char) (rest : List Char) :
    trimTrail (d :: rest) = [] ∨ ∃ t, trimTrail (d :: rest) = d :: t := by
  cases rest with
  | nil =>
    by_cases hd : d = ' '
    · exact Or.inl (by simp [trimTrail, hd])
    · exact Or.inr ⟨[], by simp [trimTrail, hd]⟩
  | cons e r => exact Or.inr ⟨trimTrail (e :: r), rfl⟩

theorem trimTrail_goodRun :
    ∀ (l : List Char), goodRun l = true → goodRun (trimTrail l) = true := by
  intro l
  induction l with
  | nil => intro _; exact rfl
  | cons c rest ih =>
    intro h
    simp only [goodRun, Bool.and_eq_true] at h
    obtain ⟨⟨hokc, hadj⟩, hrest⟩ := h
    cases rest with
    | nil =>
      by_cases hc : c = ' '
      · simp [trimTrail, hc, goodRun]
      · simp [trimTrail, hc, goodRun, hokc, firstNotSp]
    | cons d r =>
      have hT : trimTrail (c :: d :: r) = c :: trimTrail (d :: r) := rfl
      rw [hT]
      rcases trimTrail_cons_shape d r with hnil | ⟨t, ht⟩
      · rw [hnil]
        simp [goodRun, hokc, firstNotSp]
      · rw [ht]
        have hthis := ih hrest
        rw [ht] at hthis
        simp only [goodRun, Bool.and_eq_true] at hthis ⊢
        exact ⟨⟨hokc, by simpa [firstNotSp] using hadj⟩, hthis⟩

theorem trimTrail_lastOk :
    ∀ (l : List Char), goodRun l = true → lastOk (trimTrail l) = true := by
  intro l
  induction l with
  | nil => intro _; exact rfl
  | cons c rest ih =>
    intro h
    simp only [goodRun, Bool.and_eq_true] at h
    obtain ⟨⟨hokc, hadj⟩, hrest⟩ := h
    cases rest with
    | nil =>
      by_cases hc : c = ' '
      · simp [trimTrail, hc, lastOk]
      · simp [trimTrail, hc, lastOk, List.getLast?, hc]
    | cons d r =>
      have hT : trimTrail (c :: d :: r) = c :: trimTrail (d :: r) := rfl
      rw [hT]
      rcases trimTrail_cons_shape d r with hnil | ⟨t, ht⟩
      · have hde := (trimTrail_eq_nil_iff d r).mp hnil
        obtain ⟨hrnil, hdsp⟩ := hde
        subst hrnil
        subst hdsp
        simp only [firstNotSp, beq_self_eq_true, Bool.not_true, Bool.or_false] at hadj
        rw [hnil]
        simp only [lastOk, List.getLast?]
        simpa [beq_eq_false_iff_ne] using
          fun hce => (by simp [hce] at hadj : False)
      · have hlast := ih hrest
        rw [ht] at hlast ⊢
        simpa [lastOk, List.getLast?_cons_cons] using hlast

theorem trimTrail_headOk (l : List Char) (h : headOk l = true) :
    headOk (trimTrail l) = true := by
  cases l with
  | nil => exact rfl
  | cons c rest =>
    cases rest with
    | nil =>
      by_cases hc : c = ' '
      · simp [trimTrail, hc, headOk]
      · simpa [trimTrail, hc, headOk] using h
    | cons d r =>
      simpa [trimTrail, headOk] using h

theorem trimTrail_id :
    ∀ (l : List Char), lastOk l = true → trimTrail l = l := by
  intro l
  induction l with
  | nil => intro _; rfl
  | cons c rest ih =>
    intro h
    cases rest with
    | nil =>
      simp only [lastOk, List.getLast?, Option.some.injEq] at h
      simp only [trimTrail]
      rw [if_neg]
      simpa [beq_iff_eq] using h
    | cons d r =>
      have hT : trimTrail (c :: d :: r) = c :: trimTrail (d :: r) := rfl
      rw [hT, ih]
      simpa [lastOk, List.getLast?_cons_cons] using h

theorem dropWhile_id_of_headOk (l : List Char) (h : headOk l = true) :
    l.dropWhile (fun c => isspace c) = l := by
  cases l with
  | nil => rfl
  | cons c rest =>
    simp only [headOk, Bool.not_eq_true'] at h
    simp [List.dropWhile_cons, h]

theorem collapse_ws_invariants (s : List Char) :
    goodRun (collapse_ws s) = true ∧ headOk (collapse_ws s) = true ∧
      lastOk (collapse_ws s) = true := by
  refine ⟨trimTrail_goodRun _ (goodRun_collapseRun _ false), ?_,
    trimTrail_lastOk _ (goodRun_collapseRun _ false)⟩
  exact trimTrail_headOk _ (headOk_collapseRun_false _ (headOk_dropWhile s))

theorem collapse_ws_id (l : List Char) (h1 : goodRun l = true)
    (h2 : headOk l = true) (h3 : lastOk l = true) : collapse_ws l = l := by
  unfold collapse_ws
  rw [dropWhile_id_of_headOk l h2, collapseRun_id l h1, trimTrail_id l h3]

theorem collapse_ws_idem (s : List Char) :
    collapse_ws (collapse_ws s) = collapse_ws s := by
  obtain ⟨h1, h2, h3⟩ := collapse_ws_invariants s
  exact collapse_ws_id _ h1 h2 h3

/-- C5 counterexample: line normalization is not idempotent for every
strip-pattern list.  With the single literal pattern `a b` and the input
line `a<TAB>b`, the first pass finds no match (the tab is not a space)
and the whitespace collapse turns the line into `a b`; the second pass
then matches the whole line, replaces it by one space, and trims it to
the empty string. -/
theorem C5_normalize_idempotent_counterexample :
    lp_normalize_line re_matchp_lit
        (lp_normalize_line re_matchp_lit ("a\tb".toList) [("a b".toList)])
        [("a b".toList)] ≠
      lp_normalize_line re_matchp_lit ("a\tb".toList) [("a b".toList)] := by
  decide

/-- C5 as amended: line normalization with the empty strip-pattern list
(whitespace collapse and trim only) is idempotent, for every regex engine
and every input line.  With a non-empty pattern list a pattern may match
text that the replacement or the collapse itself created, so a second
pass can differ. -/
theorem C5_normalize_idempotent_empty_patterns
    (matchp : List Char → List Char → Option (Nat × Nat)) (x : List Char) :
    lp_normalize_line matchp (lp_normalize_line matchp x []) [] =
      lp_normalize_line matchp x [] := by
  simp only [lp_normalize_line, List.foldl_nil]
  exact collapse_ws_idem x

/-! ## Fix matcher lemmas -/

theorem lcs_branch_eq (ne np : List Char) :
    (if 0 < max ne.length np.length then
      (if (0:Rat) < mkRat (lcs_length ne np) (max ne.length np.length) then
        mkRat (lcs_length ne np) (max ne.length np.length)
      else 0)
    else 0) =
      ((lcs_length ne np : Rat) / ((max ne.length np.length : Nat) : Rat)) := by
  set l := lcs_length ne np with hl
  set m := max ne.length np.length with hm
  have hmk : (mkRat l m : Rat) = (l : Rat) / (m : Rat) := by
    rw [Rat.mkRat_eq_div]
    push_cast
    ring
  by_cases hmz : 0 < m
  · rw [if_pos hmz]
    by_cases hpos : (0:Rat) < mkRat l m
    · rw [if_pos hpos, hmk]
    · rw [if_neg hpos]
      have hnn : (0:Rat) ≤ mkRat l m := by
        rw [hmk]
        positivity
      have hz : mkRat l m = 0 := le_antisymm (not_lt.mp hpos) hnn
      rw [← hmk, hz]
  · rw [if_neg hmz]
    have hm0 : m = 0 := by omega
    rw [hm0]
    simp

theorem fix_confidence_eq_spec (engine : List Char → List Char → Bool)
    (err : List Char) (f : lp_fix) :
    fix_confidence engine err f = spec_confidence engine err f := by
  obtain ⟨patq, req⟩ := f
  have h12 : ¬(mkRat 9 10 < mkRat 1 2) := by decide
  have h02 : (0:Rat) < mkRat 1 2 := by decide
  have hfuzzy : ∀ patq : Option (List Char),
      (if (0:Rat) < mkRat 1 2 then
        (match patq with
        | some pat =>
          if lp_str_contains_ci err pat then mkRat 85 100
          else
            if 0 < max (normalize_for_match err).length (normalize_for_match pat).length then
              (if (0:Rat) < mkRat (lcs_length (normalize_for_match err) (normalize_for_match pat))
                    (max (normalize_for_match err).length (normalize_for_match pat).length) then
                mkRat (lcs_length (normalize_for_match err) (normalize_for_match pat))
                  (max (normalize_for_match err).length (normalize_for_match pat).length)
              else (0:Rat))
            else (0:Rat)
        | none => (0:Rat))
      else (0:Rat)) =
      (match patq with
      | some pat =>
        if lp_str_contains_ci err pat then mkRat 85 100
        else
          ((lcs_length (normalize_for_match err) (normalize_for_match pat) : Rat) /
            ((max (normalize_for_match err).length (normalize_for_match pat).length : Nat) : Rat))
      | none => (0:Rat)) := by
    intro patq
    rw [if_pos h02]
    cases patq with
    | none => rfl
    | some pat =>
      by_cases hps : lp_str_contains_ci err pat = true
      · simp [hps]
      · simp only [Bool.not_eq_true] at hps
        simp only [hps, Bool.false_eq_true, if_false]
        exact lcs_branch_eq (normalize_for_match err) (normalize_for_match pat)
  cases req with
  | none => exact hfuzzy patq
  | some r =>
    by_cases hr : r = []
    · subst hr
      exact hfuzzy patq
    · have hrne : r ≠ [] := hr
      have hre : r.isEmpty = false := by
        cases r with
        | nil => exact absurd rfl hr
        | cons a b => rfl
      by_cases he : engine r err = true
      · have hc1 : (if r ≠ [] then (if engine r err then mkRat 9 10 else (0:Rat)) else 0) =
            mkRat 9 10 := by
          rw [if_pos hrne, if_pos he]
        have hfix : fix_confidence engine err ⟨patq, some r⟩ = mkRat 9 10 := by
          simp only [fix_confidence, hc1]
          rw [if_neg h12]
        have hhits : regex_hits engine err ⟨patq, some r⟩ = true := by
          simp [regex_hits, hre, he]
        have hspec : spec_confidence engine err ⟨patq, some r⟩ = mkRat 9 10 := by
          simp only [spec_confidence]
          rw [if_pos hhits]
        rw [hfix, hspec]
      · have he' : engine r err = false := by
          simpa using he
        have hc1 : (if r ≠ [] then (if engine r err then mkRat 9 10 else (0:Rat)) else 0) =
            0 := by
          rw [if_pos hrne, if_neg (by simp [he'])]
        have hfix : fix_confidence engine err ⟨patq, some r⟩ =
            fix_confidence engine err ⟨patq, none⟩ := by
          simp only [fix_confidence, hc1]
        have hhits : regex_hits engine err ⟨patq, some r⟩ = false := by
          simp [regex_hits, he']
        have hspec : spec_confidence engine err ⟨patq, some r⟩ =
            spec_confidence engine err ⟨patq, none⟩ := by
          simp only [spec_confidence, regex_hits, hhits, Bool.false_eq_true, if_false, he',
            Bool.and_false]
        rw [hfix, hspec]
        exact hfuzzy patq

/-- C7: for every regex engine, error text, fix-entry list and threshold,
the matcher's per-entry confidence follows the spec's cascade (0.9 on a
regex hit; otherwise 0.85 on a case-insensitive raw substring hit;
otherwise the normalized-LCS ratio `ℓ / max(|norm_err|, |norm_pat|)`),
and `lp_fix_match_all` returns exactly the entries whose confidence is at
least the threshold (as a permutation of the filtered list, each paired
with its confidence), sorted by confidence descending. -/
theorem C7_fix_match_all_spec (engine : List Char → List Char → Bool)
    (err : List Char) (fixes : List lp_fix) (θ : Rat) :
    (∀ f, fix_confidence engine err f = spec_confidence engine err f) ∧
    (lp_fix_match_all engine err fixes θ).Perm
      ((fixes.filter (fun f => decide (θ ≤ spec_confidence engine err f))).map
        (fun f => ⟨f, spec_confidence engine err f⟩)) ∧
    (lp_fix_match_all engine err fixes θ).Pairwise
      (fun a b => b.confidence ≤ a.confidence) := by
  have hconf := fix_confidence_eq_spec engine err
  refine ⟨hconf, ?_, ?_⟩
  · unfold lp_fix_match_all
    have hfun : (fun f => (⟨f, fix_confidence engine err f⟩ : lp_fix_match)) =
        (fun f => (⟨f, spec_confidence engine err f⟩ : lp_fix_match)) := by
      funext f
      rw [hconf f]
    have hfil : (fixes.filter (fun f => decide (θ ≤ fix_confidence engine err f))) =
        fixes.filter (fun f => decide (θ ≤ spec_confidence engine err f)) := by
      apply List.filter_congr
      intro f _
      rw [hconf f]
    rw [hfun, hfil]
    exact sortLe_perm _ _
  · unfold lp_fix_match_all
    have hs := sortLe_pairwise
      (fun a b : lp_fix_match => decide (b.confidence ≤ a.confidence))
      (by intro a b h
          simp only [decide_eq_false_iff_not] at h
          simp only [decide_eq_true_eq]
          exact le_of_not_le h)
      (by intro a b c h1 h2
          simp only [decide_eq_true_eq] at h1 h2 ⊢
          exact le_trans h2 h1)
      ((fixes.filter (fun f => decide (θ ≤ fix_confidence engine err f))).map
        (fun f => ⟨f, fix_confidence engine err f⟩))
    refine hs.imp ?_
    intro a b h
    simpa using h

/-- C8 counterexample: on the error text
`undefined reference to 'foo_bar' in /path/x.o` and a fix entry with
empty regex and pattern `undefined reference to foo_bar`, the matcher
assigns confidence 23/36 ≈ 0.64, which is not ≥ 0.85: the quotes around
`foo_bar` defeat the direct substring rule. -/
theorem C8_lcs_confidence_counterexample :
    (lp_fix_match_all re_match_lit c8_err [c8_fix] (mkRat 3 10)).map
        (fun m => m.confidence) = [mkRat 23 36] ∧
    ¬(mkRat 85 100 ≤ mkRat 23 36) := by
  refine ⟨by decide, by decide⟩

/-- C8 as amended: the raw error text does not contain the pattern (the
apostrophes break the substring match), so the entry's confidence comes
from the normalized-LCS rule and equals 23/36 ≈ 0.64 — below 0.85 but
still at least the default 0.30 threshold, so the entry is returned. -/
theorem C8_lcs_confidence_value :
    lp_str_contains_ci c8_err ("undefined reference to foo_bar".toList) = false ∧
    (lp_fix_match_all re_match_lit c8_err [c8_fix] (mkRat 3 10)).map
        (fun m => m.confidence) = [mkRat 23 36] ∧
    mkRat 3 10 ≤ mkRat 23 36 := by
  refine ⟨by decide, by decide, by decide⟩

/-! ## Segmenter lemmas -/

theorem getD_drop_line (l : List (List Char)) (n k : Nat) :
    (l.drop n).getD k [] = l.getD (n + k) [] := by
  simp [List.getD, List.getElem?_drop]

theorem segExtendList_bounds (mode : lp_mode) (base : Nat) :
    ∀ (rest : List (List Char)) (taken : Nat) (ty : lp_seg_type) (saw : Bool),
      taken ≤ (segExtendList mode base rest taken ty saw).1 ∧
      (segExtendList mode base rest taken ty saw).1 ≤ taken + rest.length := by
  intro rest
  induction rest with
  | nil =>
    intro taken ty saw
    constructor <;> simp [segExtendList]
  | cons line rest ih =>
    intro taken ty saw
    simp only [segExtendList, List.length_cons]
    repeat' split
    all_goals
      first
        | (constructor <;> simp)
        | (have h := ih (taken + 1) (stepType ty (classify_line line mode))
              (stepSaw saw (classify_line line mode))
           constructor <;> omega)

theorem segLoopF_mem_bounds (mode : lp_mode) :
    ∀ (fuel : Nat) (rest : List (List Char)) (i : Nat) (s : lp_segment),
      s ∈ segLoopF mode fuel rest i →
      i ≤ s.start_line ∧ s.start_line ≤ s.end_line ∧ s.end_line < i + rest.length := by
  intro fuel
  induction fuel with
  | zero => intro rest i s hs; simp [segLoopF] at hs
  | succ fuel ih =>
    intro rest i s hs
    cases rest with
    | nil => simp [segLoopF] at hs
    | cons line rest =>
      simp only [segLoopF] at hs
      by_cases hb : lp_is_blank line = true
      · rw [if_pos hb] at hs
        obtain ⟨h1, h2, h3⟩ := ih rest (i + 1) s hs
        simp only [List.length_cons]
        refine ⟨by omega, h2, by omega⟩
      · rw [if_neg hb] at hs
        obtain ⟨hext1, hext2⟩ := segExtendList_bounds mode (lp_indent_level line) rest 1
          (segInit line mode).1 (segInit line mode).2
        rcases List.mem_cons.mp hs with rfl | hs
        · dsimp only
          simp only [List.length_cons]
          refine ⟨le_refl _, by omega, by omega⟩
        · obtain ⟨h1, h2, h3⟩ := ih _ _ s hs
          simp only [List.length_drop] at h3
          simp only [List.length_cons]
          refine ⟨by omega, h2, by omega⟩

theorem segLoopF_pairwise (mode : lp_mode) :
    ∀ (fuel : Nat) (rest : List (List Char)) (i : Nat),
      (segLoopF mode fuel rest i).Pairwise (fun a b => a.end_line < b.start_line) := by
  intro fuel
  induction fuel with
  | zero => intro rest i; simp [segLoopF]
  | succ fuel ih =>
    intro rest i
    cases rest with
    | nil => simp [segLoopF]
    | cons line rest =>
      simp only [segLoopF]
      by_cases hb : lp_is_blank line = true
      · rw [if_pos hb]
        exact ih rest (i + 1)
      · rw [if_neg hb]
        refine List.pairwise_cons.mpr ⟨?_, ih _ _⟩
        intro b hbmem
        obtain ⟨h1, h2, h3⟩ := segLoopF_mem_bounds mode fuel _ _ b hbmem
        obtain ⟨hext1, hext2⟩ := segExtendList_bounds mode (lp_indent_level line) rest 1
          (segInit line mode).1 (segInit line mode).2
        dsimp only
        omega

theorem segLoopF_cover (mode : lp_mode) :
    ∀ (fuel : Nat) (rest : List (List Char)) (i j : Nat),
      rest.length ≤ fuel → j < rest.length →
      lp_is_blank (rest.getD j []) = false →
      ∃ s, s ∈ segLoopF mode fuel rest i ∧ s.start_line ≤ i + j ∧ i + j ≤ s.end_line := by
  intro fuel
  induction fuel with
  | zero => intro rest i j hf hj _; omega
  | succ fuel ih =>
    intro rest i j hf hj hnb
    cases rest with
    | nil => simp at hj
    | cons line rest =>
      simp only [segLoopF]
      by_cases hb : lp_is_blank line = true
      · rw [if_pos hb]
        cases j with
        | zero =>
          rw [List.getD_cons_zero] at hnb
          rw [hb] at hnb
          exact absurd hnb (by simp)
        | succ k =>
          have hf' : rest.length ≤ fuel := by
            simp only [List.length_cons] at hf
            omega
          have hj' : k < rest.length := by
            simp only [List.length_cons] at hj
            omega
          have hnb' : lp_is_blank (rest.getD k []) = false := by
            rwa [List.getD_cons_succ] at hnb
          obtain ⟨s, hs, h1, h2⟩ := ih rest (i + 1) k hf' hj' hnb'
          exact ⟨s, hs, by omega, by omega⟩
      · rw [if_neg hb]
        have hext := segExtendList_bounds mode (lp_indent_level line) rest 1
          (segInit line mode).1 (segInit line mode).2
        by_cases hcase : j + 1 ≤ (segExtendList mode (lp_indent_level line) rest 1
            (segInit line mode).1 (segInit line mode).2).1
        · refine ⟨_, List.mem_cons_self _ _, ?_, ?_⟩ <;> dsimp only <;> omega
        · push_neg at hcase
          have hE1 : 1 ≤ (segExtendList mode (lp_indent_level line) rest 1
              (segInit line mode).1 (segInit line mode).2).1 := hext.1
          have hE2 : (segExtendList mode (lp_indent_level line) rest 1
              (segInit line mode).1 (segInit line mode).2).1 ≤ 1 + rest.length := hext.2
          have hf' : (rest.drop ((segExtendList mode (lp_indent_level line) rest 1
              (segInit line mode).1 (segInit line mode).2).1 - 1)).length ≤ fuel := by
            simp only [List.length_drop]
            simp only [List.length_cons] at hf
            omega
          have hj' : j - (segExtendList mode (lp_indent_level line) rest 1
              (segInit line mode).1 (segInit line mode).2).1 <
              (rest.drop ((segExtendList mode (lp_indent_level line) rest 1
                (segInit line mode).1 (segInit line mode).2).1 - 1)).length := by
            simp only [List.length_drop]
            simp only [List.length_cons] at hj
            omega
          have hnb' : lp_is_blank ((rest.drop ((segExtendList mode (lp_indent_level line) rest 1
              (segInit line mode).1 (segInit line mode).2).1 - 1)).getD
                (j - (segExtendList mode (lp_indent_level line) rest 1
                  (segInit line mode).1 (segInit line mode).2).1) []) = false := by
            rw [getD_drop_line]
            have hjpos : j = (j - 1) + 1 := by omega
            rw [hjpos, List.getD_cons_succ] at hnb
            have harith : (segExtendList mode (lp_indent_level line) rest 1
                (segInit line mode).1 (segInit line mode).2).1 - 1 +
                (j - (segExtendList mode (lp_indent_level line) rest 1
                  (segInit line mode).1 (segInit line mode).2).1) = j - 1 := by
              omega
            rwa [harith]
          obtain ⟨s, hs, h1, h2⟩ := ih _ _ _ hf' hj' hnb'
          refine ⟨s, List.mem_cons_of_mem _ hs, by omega, by omega⟩

/-- C1: for every input line array and every mode profile (the NULL
generic profile being `lp_mode.generic`), the segments returned by
`lp_segment_detect` are pairwise non-overlapping (each segment ends
strictly before the next begins), listed in strictly increasing
`start_line` order, satisfy `start_line ≤ end_line < input length`, and
every non-blank input line lies inside exactly one segment (blank lines
may lie in the gaps). -/
theorem C1_segment_detect_invariants (lines : List (List Char)) (mode : lp_mode) :
    (lp_segment_detect lines mode).Pairwise (fun a b => a.end_line < b.start_line) ∧
    (lp_segment_detect lines mode).Pairwise (fun a b => a.start_line < b.start_line) ∧
    (∀ s ∈ lp_segment_detect lines mode,
      s.start_line ≤ s.end_line ∧ s.end_line < lines.length) ∧
    (∀ j, j < lines.length → lp_is_blank (lines.getD j []) = false →
      ∃! s, s ∈ lp_segment_detect lines mode ∧ s.start_line ≤ j ∧ j ≤ s.end_line) := by
  have hdet : lp_segment_detect lines mode = segLoopF mode lines.length lines 0 := rfl
  rw [hdet]
  have hpw := segLoopF_pairwise mode lines.length lines 0
  refine ⟨hpw, ?_, ?_, ?_⟩
  · refine hpw.imp_of_mem ?_
    intro a b ha hb hr
    obtain ⟨h1, h2, h3⟩ := segLoopF_mem_bounds mode lines.length lines 0 a ha
    omega
  · intro s hs
    obtain ⟨h1, h2, h3⟩ := segLoopF_mem_bounds mode lines.length lines 0 s hs
    omega
  · intro j hj hnb
    obtain ⟨s, hs, h1, h2⟩ := segLoopF_cover mode lines.length lines 0 j (le_refl _) hj hnb
    refine ⟨s, ⟨hs, by omega, by omega⟩, ?_⟩
    intro y hy
    exact pairwise_mem_eq
      (P := fun s : lp_segment => s.start_line ≤ j ∧ j ≤ s.end_line)
      (fun a b hpa hpb hr => by omega)
      (segLoopF mode lines.length lines 0) hpw y hy.1 s hs
      ⟨hy.2.1, hy.2.2⟩ ⟨by omega, by omega⟩

/-- Witness for C1: on the mixed progress/error input, line 1 (the error
line) lies in exactly one detected segment. -/
theorem C1_segment_detect_invariants_witness :
    ∃! s, s ∈ lp_segment_detect c3_lines lp_mode.generic ∧
      s.start_line ≤ 1 ∧ 1 ≤ s.end_line :=
  (C1_segment_detect_invariants c3_lines lp_mode.generic).2.2.2 1
    (by decide) (by decide)
